import Mathlib

/-!
Shallow embedding of the `execctx` package (src/exec.go): a cancellable
process coordinator (`Cmd` with `Start`/`Wait`/`Run`/`CombinedOutput`/`Output`
and the background watcher goroutine) and the bounded prefix/suffix capture
buffer (`prefixSuffixSaver` with `Write`, `fill` and `Bytes`).

Bytes are modelled as `Char` (the source works on `[]byte`; no operation
inspects byte values except to render the decimal skipped count, so ASCII
chars are a faithful carrier). Go `int` arithmetic on lengths and offsets is
nonnegative throughout the source, so `Nat` with truncated subtraction is
used; every `a - b > 0` guard in the source agrees with `Nat` subtraction.
-/

namespace Execctx

/-- Errors that can flow through the coordinator, one constructor per
distinct error the source can produce or propagate. -/
inductive Error
  | ctxCanceled                     -- context.Canceled, from c.ctx.Err()
  | deadlineExceeded                -- context.DeadlineExceeded, from c.ctx.Err()
  | stdoutAlreadySet                -- errors.New("exec: Stdout already set")
  | stderrAlreadySet                -- errors.New("exec: Stderr already set")
  | startFailed                     -- an error from the underlying cmd.Start()
  | exitError (stderrBytes : List Char)  -- *exec.ExitError with its Stderr field
  | waitFailed                      -- any other error from the underlying cmd.Wait()
deriving DecidableEq, Repr

/-- The observable state and behaviour of the wrapped `*exec.Cmd`
(the external process-spawning collaborator). `startErr` and `waitResult`
are the behaviour of the underlying spawn and wait primitives; `procStdout`,
`procStderr` and `procCombined` are the bytes the process writes into a sink
attached to the corresponding stream(s) when it actually runs. -/
structure ExecCmd where
  stdoutSet : Bool            -- cmd.Stdout != nil
  stderrSet : Bool            -- cmd.Stderr != nil
  started : Bool              -- whether the underlying process was spawned
  startErr : Option Error     -- what the underlying cmd.Start() returns
  waitResult : Option Error   -- what the underlying cmd.Wait() returns
  procStdout : List Char
  procStderr : List Char
  procCombined : List Char
deriving DecidableEq, Repr

/-- The coordinator `Cmd` (src/exec.go:16-21): a context, an optional custom
cancel handler, the wrapped command, and the one-shot waitDone channel. -/
structure Cmd where
  ctxDone : Bool       -- whether c.ctx.Done() has fired
  ctxErr : Error       -- what c.ctx.Err() returns once done
  hasCancel : Bool     -- whether c.cancel is non-nil
  cmd : ExecCmd
  waitDone : Bool      -- whether close(c.waitDone) has happened
deriving DecidableEq, Repr

/-- `(*Cmd).Start` (src/exec.go:39-63): if the context is already done,
return ctx.Err() without spawning; otherwise spawn the underlying process
and return its error, marking it started on success (the background watcher
it spawns is modelled separately by `watcherStep`). -/
def Cmd.Start (c : Cmd) : Option Error × Cmd :=
  if c.ctxDone then (some c.ctxErr, c)
  else
    match c.cmd.startErr with
    | some e => (some e, c)
    | none => (none, { c with cmd := { c.cmd with started := true } })

/-- `(*Cmd).Wait` (src/exec.go:32-36): wait on the underlying command and
close the waitDone channel. -/
def Cmd.Wait (c : Cmd) : Option Error × Cmd :=
  (c.cmd.waitResult, { c with waitDone := true })

/-- `(*Cmd).Run` (src/exec.go:66-73) exactly as written in the source: note
that when `Start` fails the source executes `return nil` (line 69), i.e. the
start error is discarded and `Wait` is not called. -/
def Cmd.Run (c : Cmd) : Option Error × Cmd :=
  let r := c.Start
  match r.1 with
  | some _ => (none, r.2)   -- source line 69: `return nil`
  | none => r.2.Wait

/-- Which of the two one-shot signals raced by the watcher goroutine
(src/exec.go:50-60) becomes ready first in a given execution. -/
inductive FirstSignal
  | ctxDone
  | waitDone
deriving DecidableEq, Repr

/-- What the watcher goroutine does before it returns. -/
inductive WatcherAction
  | killProcess    -- c.cmd.Process.Kill()
  | invokeCancel   -- c.cancel()
  | noAction
deriving DecidableEq, Repr

/-- The body of the watcher goroutine spawned by a successful `Start`
(src/exec.go:50-60): a single `select` over ctx.Done() and waitDone, run
once per execution. If ctx.Done() wins and no custom cancel handler is set,
kill the process; if a handler is set, invoke it; if waitDone wins, do
nothing. -/
def watcherStep (hasCancel : Bool) (sig : FirstSignal) : WatcherAction :=
  match sig with
  | .ctxDone => if hasCancel then .invokeCancel else .killProcess
  | .waitDone => .noAction

/-- How many times a watcher action invokes the termination policy (the
custom cancel handler, or the default force-kill when it is nil). -/
def policyInvocations : WatcherAction → Nat
  | .noAction => 0
  | .killProcess => 1
  | .invokeCancel => 1

/-- `(*Cmd).CombinedOutput` (src/exec.go:77-89): fail if either output
stream is already attached; otherwise attach one shared buffer to both,
run, and return the buffer contents with the run outcome. -/
def Cmd.CombinedOutput (c : Cmd) : List Char × Option Error × Cmd :=
  if c.cmd.stdoutSet then ([], some Error.stdoutAlreadySet, c)
  else if c.cmd.stderrSet then ([], some Error.stderrAlreadySet, c)
  else
    let c1 : Cmd := { c with cmd := { c.cmd with stdoutSet := true, stderrSet := true } }
    let r := c1.Run
    ((if r.2.cmd.started then r.2.cmd.procCombined else []), r.1, r.2)

/-- `minInt` (src/exec.go:191-196). -/
def minInt (a b : Nat) : Nat :=
  if a < b then a else b

/-- The bounded capture buffer `prefixSuffixSaver` (src/exec.go:124-136).
The source field `prefix` is named `pfx` here. `suffix` becomes a ring
buffer once its length reaches `N`. -/
structure prefixSuffixSaver where
  N : Nat                    -- max size of pfx or suffix
  pfx : List Char := []
  suffix : List Char := []   -- ring buffer once suffix.length == N
  suffixOff : Nat := 0       -- offset to write into suffix
  skipped : Nat := 0
deriving DecidableEq, Repr

/-- A fresh saver of capacity `N`, as in `&prefixSuffixSaver{N: 32 << 10}`
(src/exec.go:102). -/
def pssInit (N : Nat) : prefixSuffixSaver :=
  { N := N }

/-- `(*prefixSuffixSaver).fill` (src/exec.go:164-171): append up to
`N - dst.length` bytes of `p` to `dst`; return the grown `dst` and the
un-appended remainder of `p`. -/
def fill (N : Nat) (dst p : List Char) : List Char × List Char :=
  if 0 < N - dst.length then
    let add := minInt p.length (N - dst.length)
    (dst ++ p.take add, p.drop add)
  else (dst, p)

/-- One `n := copy(w.suffix[w.suffixOff:], p)` (src/exec.go:151): overwrite
`suffix` in place starting at `off` with as many bytes of `p` as fit before
the end of `suffix`; return the updated list and the copied count `n`. -/
def ringCopy (suffix : List Char) (off : Nat) (p : List Char) : List Char × Nat :=
  let n := minInt p.length (suffix.length - off)
  (suffix.take off ++ p.take n ++ suffix.drop (off + n), n)

/-- The overwrite loop of `Write` (src/exec.go:150-158): while `p` is
nonempty, copy into the ring at `suffixOff`, advance and wrap the offset,
and count every overwritten byte as skipped. Structurally recursive on
`fuel`, which callers set to `p.length`: every Go iteration consumes at
least one byte of `p` whenever the ring is a nonempty full buffer, so
`p.length` iterations always suffice and the fuel-exhausted case is
unreachable. The `n = 0` exit is likewise unreachable whenever the loop is
entered with `suffix.length = N > 0` (the Go loop would spin forever
there). -/
def ringLoop (N : Nat) : Nat → List Char → Nat → Nat → List Char →
    List Char × Nat × Nat
  | _, suffix, off, skipped, [] => (suffix, off, skipped)
  | 0, suffix, off, skipped, _ => (suffix, off, skipped)
  | fuel + 1, suffix, off, skipped, p =>
    let r := ringCopy suffix off p
    if r.2 = 0 then (suffix, off, skipped)
    else
      let off2 := off + r.2
      ringLoop N fuel r.1 (if off2 = N then 0 else off2) (skipped + r.2) (p.drop r.2)

/-- Lines 142-158 of `Write` (src/exec.go): everything after the prefix
fill — trim `p` to its last `N` bytes (counting the trimmed bytes as
skipped), fill the suffix up to capacity, then overwrite the ring in a
circle. Returns the new suffix, offset and skipped count. -/
def ringUpdate (N : Nat) (suffix : List Char) (off skipped : Nat) (p : List Char) :
    List Char × Nat × Nat :=
  let overage := p.length - N
  let p1 := if 0 < overage then p.drop overage else p
  let sk1 := if 0 < overage then skipped + overage else skipped
  let f := fill N suffix p1
  ringLoop N f.2.length f.1 off sk1 f.2

/-- `(*prefixSuffixSaver).Write` (src/exec.go:138-160). The source also
returns `(len(p), nil)` — the write itself never fails; only the state
update is modelled. -/
def pssWrite (w : prefixSuffixSaver) (p : List Char) : prefixSuffixSaver :=
  let f := fill w.N w.pfx p
  let r := ringUpdate w.N w.suffix w.suffixOff w.skipped f.2
  { w with pfx := f.1, suffix := r.1, suffixOff := r.2.1, skipped := r.2.2 }

/-- A sequence of `Write` calls against a saver. -/
def pssWriteAll (w : prefixSuffixSaver) (ps : List (List Char)) : prefixSuffixSaver :=
  ps.foldl pssWrite w

/-- `(*prefixSuffixSaver).Bytes` (src/exec.go:173-189): prefix alone if the
suffix never received a byte; plain concatenation if nothing was skipped;
otherwise prefix, the omission marker with the decimal skipped count, and
the ring unwrapped from the cursor. -/
def pssBytes (w : prefixSuffixSaver) : List Char :=
  if w.suffix = [] then w.pfx
  else if w.skipped = 0 then w.pfx ++ w.suffix
  else
    w.pfx ++ "\n... omitting ".toList ++ (Nat.repr w.skipped).toList
      ++ " bytes ...\n".toList ++ w.suffix.drop w.suffixOff ++ w.suffix.take w.suffixOff

/-- The context argument passed to `(*Cmd).Output` (src/exec.go:93); the
constructors cover a nil context, an already-cancelled one and a live one. -/
inductive CtxArg
  | nilCtx
  | canceled
  | background
deriving DecidableEq, Repr

/-- `(*Cmd).Output` (src/exec.go:93-113): fail if stdout is attached;
attach a buffer to stdout and, when stderr is unattached, a 32 KiB
`prefixSuffixSaver` to stderr; run; on an exit error with synthesized
stderr capture, attach the reconstructed capture to the error. The `ctx`
parameter is declared but never referenced in the source body. -/
def Cmd.Output (c : Cmd) (ctx : CtxArg) : List Char × Option Error × Cmd :=
  if c.cmd.stdoutSet then ([], some Error.stdoutAlreadySet, c)
  else
    let captureErr := !c.cmd.stderrSet
    let c1 : Cmd := { c with cmd := { c.cmd with stdoutSet := true, stderrSet := true } }
    let r := c1.Run
    let stderrCaptured :=
      pssBytes (pssWrite (pssInit (32 * 1024))
        (if r.2.cmd.started then r.2.cmd.procStderr else []))
    let err :=
      match r.1, captureErr with
      | some (Error.exitError _), true => some (Error.exitError stderrCaptured)
      | e, _ => e
    ((if r.2.cmd.started then r.2.cmd.procStdout else []), err, r.2)

/-- The suffix ring unwrapped from its write cursor: the retained tail in
chronological order (src/exec.go:186-187 reads the ring in this order). -/
def chron (suffix : List Char) (off : Nat) : List Char :=
  suffix.drop off ++ suffix.take off

/-- Invariant tying the ring state to the stream `m` of bytes that have
flowed past the prefix so far (capacity `N`): the ring holds the last
`min N m.length` bytes of `m` in chronological order from the cursor, the
cursor stays inside the ring, sits at 0 until the ring is full, and the
skipped count is exactly the bytes of `m` not retained (which is 0 unless
the cursor has moved or bytes were trimmed). -/
def ringInv (N : Nat) (m suffix : List Char) (off skipped : Nat) : Prop :=
  suffix.length = min N m.length ∧
  off < N ∧
  (suffix.length < N → off = 0) ∧
  chron suffix off = m.drop (m.length - N) ∧
  skipped = m.length - suffix.length ∧
  (skipped = 0 → off = 0)

/-- Invariant of a whole saver after the byte stream `s` has been written:
the prefix is the first `min N s.length` bytes of `s` and the ring state
satisfies `ringInv` for the remainder of the stream. -/
def pssInv (N : Nat) (s : List Char) (w : prefixSuffixSaver) : Prop :=
  w.N = N ∧ w.pfx = s.take N ∧ ringInv N (s.drop N) w.suffix w.suffixOff w.skipped

/-! Concrete states used to instantiate the theorems below. -/

/-- A wrapped command with nothing attached, whose underlying spawn and wait
both succeed and whose process writes nothing. -/
def idleExecCmd : ExecCmd :=
  { stdoutSet := false, stderrSet := false, started := false, startErr := none,
    waitResult := none, procStdout := [], procStderr := [], procCombined := [] }

/-- A coordinator whose context has already been cancelled before Start. -/
def cancelledCmd : Cmd :=
  { ctxDone := true, ctxErr := Error.ctxCanceled, hasCancel := false,
    cmd := idleExecCmd, waitDone := false }

/-- A coordinator whose process already has stdout attached. -/
def stdoutBoundCmd : Cmd :=
  { ctxDone := false, ctxErr := Error.ctxCanceled, hasCancel := false,
    cmd := { idleExecCmd with stdoutSet := true }, waitDone := false }

theorem minInt_eq_min (a b : Nat) : minInt a b = min a b := by
  unfold minInt
  split <;> omega

/-- `fill` in closed form: append what fits, return the rest. -/
theorem fill_eq (N : Nat) (dst p : List Char) :
    fill N dst p = (dst ++ p.take (min p.length (N - dst.length)),
                    p.drop (min p.length (N - dst.length))) := by
  unfold fill
  split
  · rw [minInt_eq_min]
  · have h0 : N - dst.length = 0 := by omega
    simp [h0]

/-- `ringCopy` in closed take/drop form. -/
theorem ringCopy_eq (suffix p : List Char) (off : Nat) :
    ringCopy suffix off p
      = (suffix.take off ++ p.take (min p.length (suffix.length - off))
           ++ suffix.drop (off + min p.length (suffix.length - off)),
         min p.length (suffix.length - off)) := by
  unfold ringCopy
  rw [minInt_eq_min]

/-- Sliding the window of the last `N` bytes: appending `t` (with
`t.length ≤ N`) to a stream `r` that already has at least `N` bytes drops
the oldest `t.length` bytes of the window and appends `t`. -/
theorem window_slide (r t : List Char) (N k : Nat) (hr : N ≤ r.length)
    (hk : t.length = k) (hkN : k ≤ N) :
    (r.drop (r.length - N)).drop k ++ t
      = (r ++ t).drop (r.length + k - N) := by
  rw [List.drop_drop, List.drop_append_eq_append_drop]
  have h2 : r.length + k - N - r.length = 0 := by omega
  rw [h2, List.drop_zero]
  have h1 : r.length - N + k = r.length + k - N := by omega
  rw [h1]

/-- Effect of one `copy` into the ring on the chronological content: the
`n` bytes written land at the cursor, so after advancing (and wrapping)
the cursor, unwrapping yields the old content shifted by `n` with the new
bytes at the end. -/
theorem chron_ringCopy (N : Nat) (suffix p : List Char) (off n : Nat)
    (hs : suffix.length = N) (hoff : off < N)
    (hn : n = min p.length (suffix.length - off)) :
    chron (suffix.take off ++ p.take n ++ suffix.drop (off + n))
        (if off + n = N then 0 else off + n)
      = (chron suffix off).drop n ++ p.take n := by
  have hnp : n ≤ p.length := by omega
  have hnoff : off + n ≤ N := by omega
  have hlt : (suffix.take off).length = off := List.length_take_of_le (by omega)
  have hltp : (p.take n).length = n := List.length_take_of_le hnp
  have hld : (suffix.drop off).length = N - off := by simp [hs]
  have hAB : (suffix.take off ++ p.take n).length = off + n := by
    rw [List.length_append, hlt, hltp]
  -- dropping n from the old unwrapped content keeps
  -- suffix.drop (off + n) ++ suffix.take off
  have hrhs : (chron suffix off).drop n
      = suffix.drop (off + n) ++ suffix.take off := by
    unfold chron
    rw [List.drop_append_eq_append_drop, List.drop_drop]
    have e0 : n - (suffix.drop off).length = 0 := by omega
    rw [e0, List.drop_zero]
  rw [hrhs]
  have hdrop : ((suffix.take off ++ p.take n) ++ suffix.drop (off + n)).drop (off + n)
      = suffix.drop (off + n) := by
    rw [List.drop_append_eq_append_drop, List.drop_eq_nil_of_le (by omega), hAB,
      Nat.sub_self, List.drop_zero, List.nil_append]
  have htake : ((suffix.take off ++ p.take n) ++ suffix.drop (off + n)).take (off + n)
      = suffix.take off ++ p.take n := by
    rw [List.take_append_eq_append_take, List.take_of_length_le (by omega), hAB,
      Nat.sub_self, List.take_zero, List.append_nil]
  split
  · -- the cursor wrapped to 0: suffix.drop (off + n) = [] and chron is the
    -- whole new buffer
    rename_i hwrap
    have hdN : suffix.drop (off + n) = [] := List.drop_eq_nil_of_le (by omega)
    unfold chron
    simp [hdN]
  · -- no wrap: chron unwraps at off + n
    unfold chron
    rw [hdrop, htake, List.append_assoc]

/-- The overwrite loop preserves the last-`N` window: starting from a full
ring whose unwrapped content is the last `N` bytes of the stream `r`,
feeding `q` through the loop leaves a full ring whose unwrapped content is
the last `N` bytes of `r ++ q`, with the cursor still inside the ring and
every byte of `q` added to the skipped count. -/
theorem ringLoop_spec (N : Nat) (hN : 0 < N) (fuel : Nat) :
    ∀ (q r suffix : List Char) (off sk : Nat),
      q.length ≤ fuel →
      suffix.length = N →
      N ≤ r.length →
      off < N →
      chron suffix off = r.drop (r.length - N) →
      (ringLoop N fuel suffix off sk q).1.length = N ∧
      (ringLoop N fuel suffix off sk q).2.1 < N ∧
      chron (ringLoop N fuel suffix off sk q).1 (ringLoop N fuel suffix off sk q).2.1
        = (r ++ q).drop (r.length + q.length - N) ∧
      (ringLoop N fuel suffix off sk q).2.2 = sk + q.length := by
  induction fuel with
  | zero =>
    intro q r suffix off sk hq hs hr hoff hchron
    have hq0 : q = [] := List.eq_nil_of_length_eq_zero (by omega)
    subst hq0
    exact ⟨hs, hoff, by simpa using hchron, by simp [ringLoop]⟩
  | succ fuel ih =>
    intro q r suffix off sk hq hs hr hoff hchron
    cases q with
    | nil =>
      exact ⟨hs, hoff, by simpa using hchron, by simp [ringLoop]⟩
    | cons a t =>
      have hcopy := ringCopy_eq suffix (a :: t) off
      set n := min (a :: t).length (suffix.length - off) with hndef
      have hlq : (a :: t).length = t.length + 1 := by simp
      have hn1 : 1 ≤ n := by
        have h2 : 1 ≤ suffix.length - off := by omega
        omega
      have hnle : n ≤ N - off := by omega
      have hnp : n ≤ (a :: t).length := by omega
      have hsnd : (ringCopy suffix off (a :: t)).2 = n := by rw [hcopy]
      have hfst : (ringCopy suffix off (a :: t)).1
          = suffix.take off ++ (a :: t).take n ++ suffix.drop (off + n) := by
        rw [hcopy]
      have hne : ¬ (ringCopy suffix off (a :: t)).2 = 0 := by
        rw [hsnd]; omega
      have hstep : ringLoop N (fuel + 1) suffix off sk (a :: t)
          = if (ringCopy suffix off (a :: t)).2 = 0 then (suffix, off, sk)
            else ringLoop N fuel (ringCopy suffix off (a :: t)).1
              (if off + (ringCopy suffix off (a :: t)).2 = N then 0
               else off + (ringCopy suffix off (a :: t)).2)
              (sk + (ringCopy suffix off (a :: t)).2)
              ((a :: t).drop (ringCopy suffix off (a :: t)).2) := rfl
      rw [hstep, if_neg hne, hsnd, hfst]
      -- lengths of the three segments of the updated ring
      have hlt : (suffix.take off).length = off := List.length_take_of_le (by omega)
      have hltp : ((a :: t).take n).length = n := List.length_take_of_le hnp
      have hS1 : (suffix.take off ++ (a :: t).take n ++ suffix.drop (off + n)).length
          = N := by
        simp only [List.length_append, List.length_drop, hlt, hltp, hs]
        omega
      -- the chronological content after this copy
      have hch : chron (suffix.take off ++ (a :: t).take n ++ suffix.drop (off + n))
          (if off + n = N then 0 else off + n)
          = (r ++ (a :: t).take n).drop ((r ++ (a :: t).take n).length - N) := by
        rw [chron_ringCopy N suffix (a :: t) off n hs hoff hndef, hchron,
          window_slide r ((a :: t).take n) N n hr hltp (by omega)]
        rw [List.length_append, hltp]
      have happ : (r ++ (a :: t).take n) ++ (a :: t).drop n = r ++ (a :: t) := by
        rw [List.append_assoc, List.take_append_drop]
      have hoff1 : (if off + n = N then 0 else off + n) < N := by
        split <;> omega
      obtain ⟨c1, c2, c3, c4⟩ := ih ((a :: t).drop n) (r ++ (a :: t).take n)
        (suffix.take off ++ (a :: t).take n ++ suffix.drop (off + n))
        (if off + n = N then 0 else off + n) (sk + n)
        (by simp only [List.length_drop]; omega)
        hS1
        (by rw [List.length_append]; omega)
        hoff1
        hch
      refine ⟨c1, c2, ?_, ?_⟩
      · rw [c3, happ]
        have : (r ++ (a :: t).take n).length + ((a :: t).drop n).length
            = r.length + (a :: t).length := by
          simp only [List.length_append, List.length_drop, hltp]
          omega
        rw [this]
      · rw [c4]
        simp only [List.length_drop]
        omega

/-- When at least `N` bytes arrive in `q`, the last `N` bytes of `m ++ q`
are the last `N` bytes of `q` alone. -/
theorem drop_long_append (m q : List Char) (N : Nat) (hq : N ≤ q.length) :
    (m ++ q).drop (m.length + q.length - N) = q.drop (q.length - N) := by
  rw [List.drop_append_eq_append_drop]
  have h1 : m.drop (m.length + q.length - N) = [] := List.drop_eq_nil_of_le (by omega)
  rw [h1, List.nil_append]
  congr 1
  omega

/-- `ringUpdate` preserves the ring invariant: whatever `Write` pushes past
the prefix extends the stream the ring summarizes. -/
theorem ringUpdate_spec (N : Nat) (hN : 0 < N) (m suffix : List Char) (off sk : Nat)
    (q : List Char) (h : ringInv N m suffix off sk) :
    ringInv N (m ++ q)
      (ringUpdate N suffix off sk q).1
      (ringUpdate N suffix off sk q).2.1
      (ringUpdate N suffix off sk q).2.2 := by
  obtain ⟨hlen, hoff, hoff0, hchron, hsk, hsk0⟩ := h
  by_cases hq0 : q = []
  · subst hq0
    have hstep : ringUpdate N suffix off sk [] = (suffix, off, sk) := by
      simp [ringUpdate, fill_eq, ringLoop]
    rw [hstep]
    exact ⟨by simpa using hlen, hoff, hoff0, by simpa using hchron,
      by simpa using hsk, hsk0⟩
  have hq1 : 1 ≤ q.length := by
    have := List.length_pos.mpr hq0
    omega
  by_cases hmN : m.length < N
  · -- growing phase: the ring holds all of m and the cursor is at 0
    have hsl : suffix.length = m.length := by omega
    have hoffz : off = 0 := hoff0 (by omega)
    subst hoffz
    have hmz : m.length - N = 0 := by omega
    have hsm : suffix = m := by
      have hx := hchron
      simp [chron, hmz] at hx
      exact hx
    subst hsm
    have hskz : sk = 0 := by omega
    subst hskz
    by_cases htot : suffix.length + q.length ≤ N
    · -- the whole write still fits: pure fill, no loop
      have hqN : ¬ 0 < q.length - N := by omega
      have hmin : min q.length (N - suffix.length) = q.length := by omega
      have hstep : ringUpdate N suffix 0 0 q = (suffix ++ q, 0, 0) := by
        simp only [ringUpdate, if_neg hqN, fill_eq, hmin, List.take_length,
          List.drop_length]
        simp [ringLoop]
      rw [hstep]
      simp only [ringInv]
      have hlq : (suffix ++ q).length = suffix.length + q.length :=
        List.length_append _ _
      refine ⟨?_, hN, fun _ => trivial, ?_, ?_, fun _ => trivial⟩
      · omega
      · have hz : (suffix ++ q).length - N = 0 := by omega
        rw [hz, List.drop_zero]
        simp [chron]
      · omega
    · -- the write overflows the ring capacity
      by_cases hqbig : q.length ≤ N
      · -- no overage: fill to capacity, then loop on the remainder
        have hqN : ¬ 0 < q.length - N := by omega
        have hmin : min q.length (N - suffix.length) = N - suffix.length := by omega
        have hstep : ringUpdate N suffix 0 0 q
            = ringLoop N (q.drop (N - suffix.length)).length
                (suffix ++ q.take (N - suffix.length)) 0 0
                (q.drop (N - suffix.length)) := by
          simp only [ringUpdate, if_neg hqN, fill_eq, hmin]
        rw [hstep]
        have hr1 : (suffix ++ q.take (N - suffix.length)).length = N := by
          rw [List.length_append, List.length_take_of_le (by omega)]
          omega
        have hch0 : chron (suffix ++ q.take (N - suffix.length)) 0
            = (suffix ++ q.take (N - suffix.length)).drop
                ((suffix ++ q.take (N - suffix.length)).length - N) := by
          simp [chron, hr1]
        obtain ⟨c1, c2, c3, c4⟩ := ringLoop_spec N hN
          (q.drop (N - suffix.length)).length (q.drop (N - suffix.length))
          (suffix ++ q.take (N - suffix.length))
          (suffix ++ q.take (N - suffix.length)) 0 0
          (le_refl _) hr1 (by omega) hN hch0
        have happ : (suffix ++ q.take (N - suffix.length)) ++ q.drop (N - suffix.length)
            = suffix ++ q := by
          rw [List.append_assoc, List.take_append_drop]
        rw [happ] at c3
        have hidx : (suffix ++ q.take (N - suffix.length)).length
              + (q.drop (N - suffix.length)).length - N
            = (suffix ++ q).length - N := by
          rw [hr1, List.length_drop, List.length_append]
          omega
        rw [hidx] at c3
        have hlq : (suffix ++ q).length = suffix.length + q.length :=
          List.length_append _ _
        have hd : (q.drop (N - suffix.length)).length = q.length - (N - suffix.length) :=
          List.length_drop _ _
        refine ⟨?_, c2, ?_, c3, ?_, ?_⟩
        · omega
        · intro hc
          omega
        · omega
        · intro hc
          omega
      · -- overage: the first q.length - N bytes of q are dropped outright
        have hqN : 0 < q.length - N := by omega
        have hq1len : (q.drop (q.length - N)).length = N := by
          rw [List.length_drop]; omega
        have hmin : min (q.drop (q.length - N)).length (N - suffix.length)
            = N - suffix.length := by omega
        have hstep : ringUpdate N suffix 0 0 q
            = ringLoop N ((q.drop (q.length - N)).drop (N - suffix.length)).length
                (suffix ++ (q.drop (q.length - N)).take (N - suffix.length)) 0
                (0 + (q.length - N))
                ((q.drop (q.length - N)).drop (N - suffix.length)) := by
          simp only [ringUpdate, if_pos hqN, fill_eq, hmin]
        rw [hstep]
        by_cases hm0 : suffix = []
        · -- nothing was in the ring: the fill alone installs the last N bytes
          subst hm0
          have ht : (q.drop (q.length - N)).take (N - ([] : List Char).length)
              = q.drop (q.length - N) := by
            apply List.take_of_length_le
            simp [hq1len]
          have hd : (q.drop (q.length - N)).drop (N - ([] : List Char).length)
              = [] := by
            apply List.drop_eq_nil_of_le
            simp [hq1len]
          rw [ht, hd]
          have hstep2 : ringLoop N ([] : List Char).length
              ([] ++ q.drop (q.length - N)) 0 (0 + (q.length - N)) []
              = ([] ++ q.drop (q.length - N), 0, 0 + (q.length - N)) := by
            simp [ringLoop]
          rw [hstep2]
          simp only [ringInv, List.nil_append]
          refine ⟨?_, hN, ?_, ?_, ?_, ?_⟩
          · rw [hq1len]
            omega
          · intro hc
            omega
          · simp [chron, hq1len]
          · rw [hq1len]
            omega
          · intro hc
            omega
        · -- the ring grows to capacity, then the loop wraps the rest in
          have hm1 : 1 ≤ suffix.length := by
            have := List.length_pos.mpr hm0
            omega
          have hr1 : (suffix ++ (q.drop (q.length - N)).take (N - suffix.length)).length
              = N := by
            rw [List.length_append, List.length_take_of_le (by omega)]
            omega
          have hch0 : chron (suffix ++ (q.drop (q.length - N)).take (N - suffix.length)) 0
              = (suffix ++ (q.drop (q.length - N)).take (N - suffix.length)).drop
                  ((suffix ++ (q.drop (q.length - N)).take (N - suffix.length)).length
                    - N) := by
            simp [chron, hr1]
          obtain ⟨c1, c2, c3, c4⟩ := ringLoop_spec N hN
            ((q.drop (q.length - N)).drop (N - suffix.length)).length
            ((q.drop (q.length - N)).drop (N - suffix.length))
            (suffix ++ (q.drop (q.length - N)).take (N - suffix.length))
            (suffix ++ (q.drop (q.length - N)).take (N - suffix.length)) 0
            (0 + (q.length - N))
            (le_refl _) hr1 (by omega) hN hch0
          have happ : (suffix ++ (q.drop (q.length - N)).take (N - suffix.length))
                ++ (q.drop (q.length - N)).drop (N - suffix.length)
              = suffix ++ q.drop (q.length - N) := by
            rw [List.append_assoc, List.take_append_drop]
          rw [happ] at c3
          have hdl : ((q.drop (q.length - N)).drop (N - suffix.length)).length
              = suffix.length := by
            rw [List.length_drop, hq1len]
            omega
          have hidx : (suffix ++ (q.drop (q.length - N)).take (N - suffix.length)).length
                + ((q.drop (q.length - N)).drop (N - suffix.length)).length - N
              = suffix.length := by
            rw [hr1, hdl]
            omega
          rw [hidx, List.drop_left] at c3
          have htgt : (suffix ++ q).drop ((suffix ++ q).length - N)
              = q.drop (q.length - N) := by
            rw [List.length_append]
            exact drop_long_append suffix q N (by omega)
          have hlq2 : (suffix ++ q).length = suffix.length + q.length :=
            List.length_append _ _
          refine ⟨?_, c2, ?_, ?_, ?_, ?_⟩
          · rw [c1, hlq2]
            omega
          · intro hc
            omega
          · rw [c3, htgt]
          · omega
          · intro hc
            omega
  · -- the ring was already full
    have hslN : suffix.length = N := by omega
    have hmge : N ≤ m.length := by omega
    have hskv : sk = m.length - N := by omega
    by_cases hqbig : q.length ≤ N
    · -- no overage: fill is a no-op and the loop takes all of q
      have hqN : ¬ 0 < q.length - N := by omega
      have hmin : min q.length (N - suffix.length) = 0 := by omega
      have hstep : ringUpdate N suffix off sk q
          = ringLoop N q.length suffix off sk q := by
        simp only [ringUpdate, if_neg hqN, fill_eq, hmin, List.take_zero,
          List.append_nil, List.drop_zero]
      rw [hstep]
      obtain ⟨c1, c2, c3, c4⟩ := ringLoop_spec N hN q.length q m suffix off sk
        (le_refl _) hslN hmge hoff hchron
      have hlq : (m ++ q).length = m.length + q.length := List.length_append _ _
      refine ⟨?_, c2, ?_, ?_, ?_, ?_⟩
      · omega
      · intro hc
        omega
      · rw [c3, hlq]
      · omega
      · intro hc
        rw [c4] at hc
        omega
    · -- overage: only the last N bytes of q ever touch the ring
      have hqN : 0 < q.length - N := by omega
      have hq1len : (q.drop (q.length - N)).length = N := by
        rw [List.length_drop]; omega
      have hmin : min (q.drop (q.length - N)).length (N - suffix.length) = 0 := by
        omega
      have hstep : ringUpdate N suffix off sk q
          = ringLoop N (q.drop (q.length - N)).length suffix off
              (sk + (q.length - N)) (q.drop (q.length - N)) := by
        simp only [ringUpdate, if_pos hqN, fill_eq, hmin, List.take_zero,
          List.append_nil, List.drop_zero]
      rw [hstep]
      obtain ⟨c1, c2, c3, c4⟩ := ringLoop_spec N hN (q.drop (q.length - N)).length
        (q.drop (q.length - N)) m suffix off (sk + (q.length - N))
        (le_refl _) hslN hmge hoff hchron
      have hidx : m.length + (q.drop (q.length - N)).length - N = m.length := by
        rw [hq1len]
        omega
      rw [hidx, List.drop_left] at c3
      have htgt : (m ++ q).drop ((m ++ q).length - N) = q.drop (q.length - N) := by
        rw [List.length_append]
        exact drop_long_append m q N (by omega)
      have hlq : (m ++ q).length = m.length + q.length := List.length_append _ _
      refine ⟨?_, c2, ?_, ?_, ?_, ?_⟩
      · omega
      · intro hc
        omega
      · rw [c3, htgt]
      · omega
      · intro hc
        omega

theorem take_min_length (p : List Char) (x : Nat) :
    p.take (min p.length x) = p.take x := by
  by_cases hc : p.length ≤ x
  · have h1 : min p.length x = p.length := by omega
    rw [h1, List.take_length, List.take_of_length_le hc]
  · have h1 : min p.length x = x := by omega
    rw [h1]

theorem drop_min_length (p : List Char) (x : Nat) :
    p.drop (min p.length x) = p.drop x := by
  by_cases hc : p.length ≤ x
  · have h1 : min p.length x = p.length := by omega
    rw [h1, List.drop_length, (List.drop_eq_nil_of_le hc).symm]
  · have h1 : min p.length x = x := by omega
    rw [h1]

/-- One `Write` call preserves the saver invariant, extending the stream by
the written bytes. -/
theorem pssWrite_inv (N : Nat) (hN : 0 < N) (s p : List Char)
    (w : prefixSuffixSaver) (h : pssInv N s w) :
    pssInv N (s ++ p) (pssWrite w p) := by
  obtain ⟨hwN, hpfx, hring⟩ := h
  subst hwN
  have hplen : w.pfx.length = min w.N s.length := by
    rw [hpfx, List.length_take]
  have hNm : w.N - w.pfx.length = w.N - s.length := by omega
  have hf1 : (fill w.N w.pfx p).1 = (s ++ p).take w.N := by
    rw [fill_eq, hNm, hpfx, take_min_length, ← List.take_append_eq_append_take]
  have hf2 : s.drop w.N ++ (fill w.N w.pfx p).2 = (s ++ p).drop w.N := by
    rw [fill_eq, hNm, drop_min_length, ← List.drop_append_eq_append_drop]
  have hr := ringUpdate_spec w.N hN (s.drop w.N) w.suffix w.suffixOff w.skipped
    (fill w.N w.pfx p).2 hring
  rw [hf2] at hr
  exact ⟨rfl, hf1, hr⟩

/-- The invariant at a fresh saver. -/
theorem pssInit_inv (N : Nat) (hN : 0 < N) : pssInv N [] (pssInit N) := by
  refine ⟨rfl, ?_, ?_, hN, fun _ => rfl, ?_, ?_, fun _ => rfl⟩
  · simp [pssInit]
  · simp [pssInit]
  · simp [pssInit, chron]
  · simp [pssInit]

/-- The saver invariant after any sequence of `Write` calls. -/
theorem pssWriteAll_inv (N : Nat) (hN : 0 < N) (ps : List (List Char)) :
    ∀ (s : List Char) (w : prefixSuffixSaver), pssInv N s w →
      pssInv N (s ++ ps.flatten) (pssWriteAll w ps) := by
  induction ps with
  | nil =>
    intro s w h
    simpa [pssWriteAll] using h
  | cons p t ih =>
    intro s w h
    have h2 := ih (s ++ p) (pssWrite w p) (pssWrite_inv N hN s p w h)
    simpa [pssWriteAll, List.append_assoc] using h2

/-- The saver invariant for a fresh saver fed the whole write sequence. -/
theorem pss_inv_all (N : Nat) (hN : 0 < N) (ps : List (List Char)) :
    pssInv N ps.flatten (pssWriteAll (pssInit N) ps) := by
  have h := pssWriteAll_inv N hN ps [] (pssInit N) (pssInit_inv N hN)
  simpa using h

/-- Writing an empty byte slice changes nothing. -/
theorem pssWrite_nil (w : prefixSuffixSaver) : pssWrite w [] = w := by
  simp [pssWrite, fill_eq, ringUpdate, ringLoop]

/-- A sequence of writes that carries no bytes at all changes nothing. -/
theorem pssWriteAll_nil_writes (ps : List (List Char)) :
    ∀ w : prefixSuffixSaver, ps.flatten.length = 0 → pssWriteAll w ps = w := by
  induction ps with
  | nil => intro w _; rfl
  | cons p t ih =>
    intro w h
    simp only [List.flatten_cons, List.length_append] at h
    have hp : p = [] := List.eq_nil_of_length_eq_zero (by omega)
    subst hp
    have hstep : pssWriteAll w ([] :: t) = pssWriteAll (pssWrite w []) t := rfl
    rw [hstep, pssWrite_nil]
    exact ih w (by omega)

/-- C1: the claim fails on the code. At a coordinator whose context is
already cancelled, `Start` returns the cancellation error, yet `Run`
returns success: src/exec.go:69 executes `return nil` where the start
failure should be forwarded, so `Run` discards the error and reports
success for a process that never started. -/
theorem run_swallows_start_failure :
    (Cmd.Start cancelledCmd).1 = some Error.ctxCanceled ∧
    (Cmd.Run cancelledCmd).1 = none ∧
    (Cmd.Run cancelledCmd).2.cmd.started = false := by
  refine ⟨rfl, rfl, rfl⟩

/-- C2: if the cancellation signal has already fired before `Start` is
called, `Start` returns the context's error and leaves the coordinator
(including the process handle) completely unchanged — no process is
spawned. -/
theorem start_already_cancelled (c : Cmd) (h : c.ctxDone = true) :
    Cmd.Start c = (some c.ctxErr, c) := by
  simp [Cmd.Start, h]

/-- Witness for `start_already_cancelled` at a concrete coordinator. -/
theorem start_already_cancelled_witness :
    cancelledCmd.ctxDone = true ∧
    Cmd.Start cancelledCmd = (some cancelledCmd.ctxErr, cancelledCmd) :=
  ⟨rfl, start_already_cancelled cancelledCmd rfl⟩

/-- C3: in every execution of the watcher goroutine spawned by a
successful `Start`, the termination policy (the custom cancel handler, or
the default force-kill when it is nil) is invoked at most once, and it is
invoked zero times in any execution where the wait-completed signal fires
before the cancellation signal is observed. -/
theorem watcher_policy_at_most_once (hasCancel : Bool) (sig : FirstSignal) :
    policyInvocations (watcherStep hasCancel sig) ≤ 1 ∧
    policyInvocations (watcherStep hasCancel FirstSignal.waitDone) = 0 := by
  refine ⟨?_, rfl⟩
  cases sig <;> cases hasCancel <;> simp [watcherStep, policyInvocations]

/-- C5: with capacity 4, writing the ten bytes ABCDEFGHIJ and
reconstructing yields the prefix ABCD, the omission marker for the two
skipped bytes EF, and the suffix GHIJ. -/
theorem pss_capacity4_example :
    pssBytes (pssWrite (pssInit 4) "ABCDEFGHIJ".toList)
      = "ABCD\n... omitting 2 bytes ...\nGHIJ".toList := by
  rfl

/-- C8: when stdout or stderr is already attached, `CombinedOutput` fails
with the corresponding stream-already-bound error, returns no bytes, and
leaves the coordinator unchanged (so no spawn happens and the attachments
stay as they were); consequently a repeated call returns the identical
result. -/
theorem combinedOutput_stream_already_bound (c : Cmd)
    (h : c.cmd.stdoutSet = true ∨ c.cmd.stderrSet = true) :
    Cmd.CombinedOutput c =
      ([], some (if c.cmd.stdoutSet then Error.stdoutAlreadySet else Error.stderrAlreadySet),
        c) ∧
    Cmd.CombinedOutput (Cmd.CombinedOutput c).2.2 = Cmd.CombinedOutput c := by
  have h1 : Cmd.CombinedOutput c =
      ([], some (if c.cmd.stdoutSet then Error.stdoutAlreadySet else Error.stderrAlreadySet),
        c) := by
    rcases h with h | h
    · simp [Cmd.CombinedOutput, h]
    · by_cases hs : c.cmd.stdoutSet <;> simp [Cmd.CombinedOutput, h, hs]
  refine ⟨h1, ?_⟩
  rw [h1]
  exact h1

/-- Witness for `combinedOutput_stream_already_bound` at a coordinator with
stdout already attached. -/
theorem combinedOutput_stream_already_bound_witness :
    (stdoutBoundCmd.cmd.stdoutSet = true ∨ stdoutBoundCmd.cmd.stderrSet = true) ∧
    Cmd.CombinedOutput stdoutBoundCmd =
      ([], some Error.stdoutAlreadySet, stdoutBoundCmd) :=
  ⟨Or.inl rfl, (combinedOutput_stream_already_bound stdoutBoundCmd (Or.inl rfl)).1⟩

/-- C4: for every capacity N > 0 and every finite sequence of writes, the
prefix and the suffix each hold at most N bytes (hence at most 2N
together), the prefix is a contiguous head and the unwrapped suffix ring a
contiguous tail of the concatenated write stream in chronological order,
and skipped equals total bytes ever written minus the bytes retained. -/
theorem pss_retention_invariant (N : Nat) (hN : 0 < N) (ps : List (List Char)) :
    (pssWriteAll (pssInit N) ps).pfx.length ≤ N ∧
    (pssWriteAll (pssInit N) ps).suffix.length ≤ N ∧
    (pssWriteAll (pssInit N) ps).pfx.length + (pssWriteAll (pssInit N) ps).suffix.length
      ≤ 2 * N ∧
    (pssWriteAll (pssInit N) ps).pfx
      = ps.flatten.take (pssWriteAll (pssInit N) ps).pfx.length ∧
    chron (pssWriteAll (pssInit N) ps).suffix (pssWriteAll (pssInit N) ps).suffixOff
      = ps.flatten.drop
          (ps.flatten.length - (pssWriteAll (pssInit N) ps).suffix.length) ∧
    (pssWriteAll (pssInit N) ps).skipped
      = ps.flatten.length - ((pssWriteAll (pssInit N) ps).pfx.length
          + (pssWriteAll (pssInit N) ps).suffix.length) := by
  obtain ⟨hwN, hpfx, hlenR, hoffR, hoff0R, hchronR, hskR, hsk0R⟩ := pss_inv_all N hN ps
  have hplen : (pssWriteAll (pssInit N) ps).pfx.length = min N ps.flatten.length := by
    rw [hpfx, List.length_take]
  have hmlen : (ps.flatten.drop N).length = ps.flatten.length - N :=
    List.length_drop _ _
  refine ⟨by omega, by omega, by omega, ?_, ?_, by omega⟩
  · rw [hpfx, List.length_take, Nat.min_comm, take_min_length]
  · by_cases hsN : ps.flatten.length ≤ N
    · have hm0 : ps.flatten.drop N = [] := List.drop_eq_nil_of_le hsN
      have hs0 : (pssWriteAll (pssInit N) ps).suffix = [] := by
        apply List.eq_nil_of_length_eq_zero
        rw [hlenR, hm0]
        simp
      rw [hs0]
      simp [chron]
    · rw [hchronR, List.drop_drop]
      congr 1
      omega

/-- Witness for `pss_retention_invariant` at capacity 2 and the writes
abc, de. -/
theorem pss_retention_invariant_witness :
    0 < 2 ∧
    ((pssWriteAll (pssInit 2) [['a', 'b', 'c'], ['d', 'e']]).pfx.length ≤ 2 ∧
     (pssWriteAll (pssInit 2) [['a', 'b', 'c'], ['d', 'e']]).suffix.length ≤ 2 ∧
     (pssWriteAll (pssInit 2) [['a', 'b', 'c'], ['d', 'e']]).pfx.length
         + (pssWriteAll (pssInit 2) [['a', 'b', 'c'], ['d', 'e']]).suffix.length
       ≤ 2 * 2 ∧
     (pssWriteAll (pssInit 2) [['a', 'b', 'c'], ['d', 'e']]).pfx
       = ([['a', 'b', 'c'], ['d', 'e']] : List (List Char)).flatten.take
           (pssWriteAll (pssInit 2) [['a', 'b', 'c'], ['d', 'e']]).pfx.length ∧
     chron (pssWriteAll (pssInit 2) [['a', 'b', 'c'], ['d', 'e']]).suffix
         (pssWriteAll (pssInit 2) [['a', 'b', 'c'], ['d', 'e']]).suffixOff
       = ([['a', 'b', 'c'], ['d', 'e']] : List (List Char)).flatten.drop
           (([['a', 'b', 'c'], ['d', 'e']] : List (List Char)).flatten.length
             - (pssWriteAll (pssInit 2) [['a', 'b', 'c'], ['d', 'e']]).suffix.length) ∧
     (pssWriteAll (pssInit 2) [['a', 'b', 'c'], ['d', 'e']]).skipped
       = ([['a', 'b', 'c'], ['d', 'e']] : List (List Char)).flatten.length
           - ((pssWriteAll (pssInit 2) [['a', 'b', 'c'], ['d', 'e']]).pfx.length
             + (pssWriteAll (pssInit 2) [['a', 'b', 'c'], ['d', 'e']]).suffix.length)) :=
  ⟨by decide, pss_retention_invariant 2 (by decide) [['a', 'b', 'c'], ['d', 'e']]⟩

/-- C6: when the total number of bytes written is at most the capacity,
reconstruction returns exactly the concatenation of the writes, unmodified
and with no omission marker. -/
theorem pss_small_total_exact (N : Nat) (ps : List (List Char))
    (h : ps.flatten.length ≤ N) :
    pssBytes (pssWriteAll (pssInit N) ps) = ps.flatten := by
  by_cases hN : 0 < N
  · obtain ⟨hwN, hpfx, hlenR, hoffR, hoff0R, hchronR, hskR, hsk0R⟩ :=
      pss_inv_all N hN ps
    have hm0 : ps.flatten.drop N = [] := List.drop_eq_nil_of_le h
    have hs0 : (pssWriteAll (pssInit N) ps).suffix = [] := by
      apply List.eq_nil_of_length_eq_zero
      rw [hlenR, hm0]
      simp
    simp [pssBytes, hs0, hpfx, List.take_of_length_le h]
  · have hN0 : N = 0 := by omega
    subst hN0
    have hflat : ps.flatten = [] := List.eq_nil_of_length_eq_zero (by omega)
    rw [pssWriteAll_nil_writes ps (pssInit 0) (by omega), hflat]
    simp [pssBytes, pssInit]

/-- Witness for `pss_small_total_exact` at capacity 4 and the writes
ab, c. -/
theorem pss_small_total_exact_witness :
    ([['a', 'b'], ['c']] : List (List Char)).flatten.length ≤ 4 ∧
    pssBytes (pssWriteAll (pssInit 4) [['a', 'b'], ['c']])
      = ([['a', 'b'], ['c']] : List (List Char)).flatten :=
  ⟨by decide, pss_small_total_exact 4 [['a', 'b'], ['c']] (by decide)⟩

/-- C7: whenever bytes were skipped, reconstruction returns the prefix,
then the omission marker carrying the decimal skipped count, then the
suffix ring read starting at the cursor and wrapping around — and that
suffix segment is exactly the last N bytes of the whole write stream in
chronological order. -/
theorem pss_marker_when_skipped (N : Nat) (hN : 0 < N) (ps : List (List Char))
    (hsk : 0 < (pssWriteAll (pssInit N) ps).skipped) :
    pssBytes (pssWriteAll (pssInit N) ps)
      = (pssWriteAll (pssInit N) ps).pfx ++ "\n... omitting ".toList
          ++ (Nat.repr (pssWriteAll (pssInit N) ps).skipped).toList
          ++ " bytes ...\n".toList
          ++ chron (pssWriteAll (pssInit N) ps).suffix
              (pssWriteAll (pssInit N) ps).suffixOff ∧
    chron (pssWriteAll (pssInit N) ps).suffix (pssWriteAll (pssInit N) ps).suffixOff
      = ps.flatten.drop (ps.flatten.length - N) := by
  obtain ⟨hwN, hpfx, hlenR, hoffR, hoff0R, hchronR, hskR, hsk0R⟩ := pss_inv_all N hN ps
  have hmlen : (ps.flatten.drop N).length = ps.flatten.length - N :=
    List.length_drop _ _
  have hfull : (pssWriteAll (pssInit N) ps).suffix.length = N := by omega
  have hsne : (pssWriteAll (pssInit N) ps).suffix ≠ [] := by
    intro hc
    rw [hc] at hfull
    simp at hfull
    omega
  have hskne : ¬ (pssWriteAll (pssInit N) ps).skipped = 0 := by omega
  constructor
  · unfold pssBytes chron
    rw [if_neg hsne, if_neg hskne]
    simp [List.append_assoc]
  · rw [hchronR, List.drop_drop]
    congr 1
    omega

/-- Witness for `pss_marker_when_skipped` at capacity 2 and one write of
seven bytes. -/
theorem pss_marker_when_skipped_witness :
    0 < 2 ∧
    0 < (pssWriteAll (pssInit 2) [['a', 'b', 'c', 'd', 'e', 'f', 'g']]).skipped ∧
    (pssBytes (pssWriteAll (pssInit 2) [['a', 'b', 'c', 'd', 'e', 'f', 'g']])
      = (pssWriteAll (pssInit 2) [['a', 'b', 'c', 'd', 'e', 'f', 'g']]).pfx
          ++ "\n... omitting ".toList
          ++ (Nat.repr
              (pssWriteAll (pssInit 2) [['a', 'b', 'c', 'd', 'e', 'f', 'g']]).skipped).toList
          ++ " bytes ...\n".toList
          ++ chron (pssWriteAll (pssInit 2) [['a', 'b', 'c', 'd', 'e', 'f', 'g']]).suffix
              (pssWriteAll (pssInit 2) [['a', 'b', 'c', 'd', 'e', 'f', 'g']]).suffixOff ∧
     chron (pssWriteAll (pssInit 2) [['a', 'b', 'c', 'd', 'e', 'f', 'g']]).suffix
         (pssWriteAll (pssInit 2) [['a', 'b', 'c', 'd', 'e', 'f', 'g']]).suffixOff
       = ([['a', 'b', 'c', 'd', 'e', 'f', 'g']] : List (List Char)).flatten.drop
           (([['a', 'b', 'c', 'd', 'e', 'f', 'g']] : List (List Char)).flatten.length
             - 2)) :=
  ⟨by decide, by decide,
    pss_marker_when_skipped 2 (by decide) [['a', 'b', 'c', 'd', 'e', 'f', 'g']]
      (by decide)⟩

/-- C9: after any write sequence into a saver of capacity N > 0, the ring
cursor stays in [0, N); and whenever nothing was skipped the cursor is
still 0 (the ring never wrapped), so the no-marker reconstruction — the
plain concatenation of prefix and suffix — is the whole stream in
chronological order. -/
theorem pss_no_skip_chronological (N : Nat) (hN : 0 < N) (ps : List (List Char)) :
    (pssWriteAll (pssInit N) ps).suffixOff < N ∧
    ((pssWriteAll (pssInit N) ps).skipped = 0 →
      (pssWriteAll (pssInit N) ps).suffixOff = 0 ∧
      (pssWriteAll (pssInit N) ps).pfx ++ (pssWriteAll (pssInit N) ps).suffix
        = ps.flatten) := by
  obtain ⟨hwN, hpfx, hlenR, hoffR, hoff0R, hchronR, hskR, hsk0R⟩ := pss_inv_all N hN ps
  refine ⟨hoffR, fun hz => ⟨hsk0R hz, ?_⟩⟩
  have hoffz := hsk0R hz
  have hmlen : (ps.flatten.drop N).length = ps.flatten.length - N :=
    List.length_drop _ _
  have hmsmall : (ps.flatten.drop N).length ≤ N := by omega
  have h1 := hchronR
  rw [hoffz] at h1
  simp only [chron, List.drop_zero, List.take_zero, List.append_nil] at h1
  rw [Nat.sub_eq_zero_of_le hmsmall, List.drop_zero] at h1
  rw [hpfx, h1, List.take_append_drop]

/-- Witness for `pss_no_skip_chronological` at capacity 3 and one write of
two bytes. -/
theorem pss_no_skip_chronological_witness :
    0 < 3 ∧
    ((pssWriteAll (pssInit 3) [['x', 'y']]).suffixOff < 3 ∧
     ((pssWriteAll (pssInit 3) [['x', 'y']]).skipped = 0 →
       (pssWriteAll (pssInit 3) [['x', 'y']]).suffixOff = 0 ∧
       (pssWriteAll (pssInit 3) [['x', 'y']]).pfx
           ++ (pssWriteAll (pssInit 3) [['x', 'y']]).suffix
         = ([['x', 'y']] : List (List Char)).flatten)) :=
  ⟨by decide, pss_no_skip_chronological 3 (by decide) [['x', 'y']]⟩

/-- C10: `Output` never consults its `ctx` argument — for any coordinator
state and any two context arguments (nil, already-cancelled or live), the
results are identical. -/
theorem output_ignores_ctx_argument (c : Cmd) (a b : CtxArg) :
    Cmd.Output c a = Cmd.Output c b := rfl

end Execctx
